import Mathlib

/-!
Shallow embedding of `src/search_utils.py` (intent extraction, amenity
normalization, scoring and search over rental listings), together with
theorems settling the specification claims.

Modelling conventions:
* Python floats are modelled as exact rationals (`ℚ`); the float rounding of
  decimal literals is not modelled (all numbers appearing in the claims are
  exactly representable).
* The sentence-transformer embedder and sklearn's `cosine_similarity` are
  external libraries, so they are abstracted as parameters
  (`embedQuery : String → E`, `cos : E → E → ℚ`).
* Python strings are modelled through their character lists; `str.lower`,
  `str.strip` and the `in` substring test are modelled character-wise.
  Character classes (`\s`, `\w`, `[A-Za-z]`, digits) are modelled on the
  character sets relevant to the vocabulary and claims (ASCII letters and
  digits, the common whitespace characters); `re.search` is modelled by a
  leftmost scan with the exact greedy/lazy backtracking order of the two
  patterns appearing in the source.
-/

/-- Character set of the regex class `\s` / `str.strip()` whitespace
(the ASCII whitespace characters plus the common Unicode space characters
recognised by Python). -/
def isPySpace (c : Char) : Bool :=
  c = ' ' || c = '\t' || c = '\n' || c = '\r' || c = '\x0b' || c = '\x0c' ||
  c = '\x1c' || c = '\x1d' || c = '\x1e' || c = '\x1f' || c = '\x85' ||
  c = '\xa0' || c = ' ' || c = ' ' || c = ' ' || c = ' ' ||
  c = ' ' || c = ' ' || c = ' ' || c = ' ' || c = ' ' ||
  c = ' ' || c = ' ' || c = ' ' || c = ' ' || c = ' ' ||
  c = ' ' || c = ' ' || c = '　'

/-- Regex word character `\w` (ASCII): letters, digits and underscore;
used for the `\b` word boundary of the location pattern. -/
def isWordChar (c : Char) : Bool := c.isAlphanum || c = '_'

/-- Python `str.lower()` modelled character-wise. -/
def pyLower (s : String) : String := String.mk (s.toList.map Char.toLower)

/-- Does the list start with the given needle? (helper for the Python
substring test `needle in haystack`). -/
def listStartsWith : List Char → List Char → Bool
  | _, [] => true
  | [], _ :: _ => false
  | c :: cs, d :: ds => c = d && listStartsWith cs ds

/-- Substring test on character lists (Python `needle in haystack`). -/
def listContainsSub : List Char → List Char → Bool
  | [], n => listStartsWith [] n
  | c :: cs, n => listStartsWith (c :: cs) n || listContainsSub cs n

/-- Python `needle in haystack` on strings. -/
def strContains (haystack needle : String) : Bool :=
  listContainsSub haystack.toList needle.toList

/-- Drop characters satisfying `p` from both ends of a list
(Python `str.strip(chars)`). -/
def stripWith (p : Char → Bool) (l : List Char) : List Char :=
  ((l.dropWhile p).reverse.dropWhile p).reverse

/-- Python `str.strip()` (whitespace strip). -/
def pyStrip (s : String) : String := String.mk (stripWith isPySpace s.toList)

/-- The canonical amenity vocabulary `key_amenities` from the source. -/
def key_amenities : List String :=
  ["hot tub", "wifi", "kitchen", "wine glasses", "air conditioning",
   "central heating", "microwave", "paid street parking off premises",
   "washer", "dryer", "pets allowed", "smoke alarm", "private entrance",
   "bathtub", "first aid kit", "accessible", "private patio or balcony"]

/-- The synonym table `AMENITY_SYNONYMS` from the source, in insertion order
(Python dicts iterate in insertion order). -/
def AMENITY_SYNONYMS : List (String × List String) :=
  [("hot tub", ["jacuzzi", "spa", "hot-tub"]),
   ("wifi", ["internet", "wireless"]),
   ("air conditioning", ["ac", "aircon"]),
   ("private patio or balcony", ["balcony", "terrace"]),
   ("pets allowed", ["pet friendly", "dog friendly"]),
   ("accessible", ["wheelchair", "step-free"])]

/-- `AMENITY_SYNONYMS.get(a, [])` from the source. -/
def synonymsOf (a : String) : List String :=
  match AMENITY_SYNONYMS.find? (fun p => p.1 == a) with
  | some p => p.2
  | none => []

/-- Character class `[A-Za-z\s]` of the location pattern's capture group. -/
def locClass (c : Char) : Bool := c.isAlpha || isPySpace c

/-- The capture group's terminator `(?:\s|$|,)`: succeeds at the end of the
string, or when the next character is whitespace or a comma (a `$` just
before a trailing newline is subsumed by `\s` matching the newline). -/
def termAt : List Char → Bool
  | [] => true
  | c :: _ => isPySpace c || c = ','

/-- The lazy capture `([A-Za-z\s]+?)` followed by `(?:\s|$|,)`: the shortest
non-empty run of class characters after which the terminator matches. -/
def lazyCapture : List Char → Option (List Char)
  | [] => none
  | c :: cs =>
    if locClass c then
      if termAt cs then some [c]
      else
        match lazyCapture cs with
        | some g => some (c :: g)
        | none => none
    else none

/-- Backtracking of the greedy `\s+`: with `j` whitespace characters still
allowed for `\s+`, try the capture after `j` characters, then retry with
fewer (down to one). -/
def tryWsDown : Nat → List Char → Option (List Char)
  | 0, _ => none
  | j + 1, rest =>
    match lazyCapture (rest.drop (j + 1)) with
    | some g => some g
    | none => tryWsDown j rest

/-- Match `\s+([A-Za-z\s]+?)(?:\s|$|,)` at the start of `rest`, returning
the capture group. -/
def matchAfterToken (rest : List Char) : Option (List Char) :=
  tryWsDown (rest.takeWhile isPySpace).length rest

/-- One attempt of the location pattern `\b(?:in|at)` at the current
position (the boundary flag says whether the previous character, if any, is
a non-word character). -/
def locAttempt (boundary : Bool) : List Char → Option (List Char)
  | c :: d :: rest =>
    if boundary &&
        ((c.toLower = 'i' && d.toLower = 'n') ||
          (c.toLower = 'a' && d.toLower = 't')) then
      matchAfterToken rest
    else none
  | _ => none

/-- Leftmost search of the location pattern
`\b(?:in|at)\s+([A-Za-z\s]+?)(?:\s|$|,)` with `re.IGNORECASE`
(`prev` is the character before the current position, if any). -/
def locSearch : Option Char → List Char → Option (List Char)
  | _, [] => none
  | prev, c :: cs =>
    let boundary := match prev with
      | none => true
      | some p => !(isWordChar p)
    match locAttempt boundary (c :: cs) with
    | some g => some g
    | none => locSearch (some c) cs

/-- The location field of `extract_intent`: the stripped capture of the
first match of the location pattern, if any. -/
def extractLocation (q : String) : Option String :=
  (locSearch none q.toList).map (fun g => String.mk (stripWith isPySpace g))

/-- Case-insensitive literal matcher for the price keywords (the keyword is
given in lowercase); returns the remaining input on success. -/
def matchLit : List Char → List Char → Option (List Char)
  | [], l => some l
  | _ :: _, [] => none
  | k :: ks, c :: cs => if c.toLower = k then matchLit ks cs else none

/-- The currency class of the price pattern. The source file's bytes encode
the class `[Â£$]` (a mojibake of `£`), i.e. the three characters
`Â`, `£` and `$`. -/
def isCurrency (c : Char) : Bool := c = 'Â' || c = '£' || c = '$'

/-- The thousands groups `(?:,\d{3})*`: greedily consume repetitions of a
comma followed by exactly three digits; returns the consumed characters and
the remaining input. -/
def commaGroups : List Char → List Char × List Char
  | c :: a :: b :: d :: rest =>
    if c = ',' && a.isDigit && b.isDigit && d.isDigit then
      match commaGroups rest with
      | (g, r) => (c :: a :: b :: d :: g, r)
    else ([], c :: a :: b :: d :: rest)
  | l => ([], l)

/-- The optional decimal part `(?:\.\d+)?`: a dot followed by at least one
digit, or nothing. -/
def decimalPart : List Char → List Char
  | [] => []
  | c :: rest =>
    if c = '.' then
      if (rest.takeWhile Char.isDigit).isEmpty then []
      else '.' :: rest.takeWhile Char.isDigit
    else []

/-- Match `\s*[Â£$]?(\d+(?:,\d{3})*(?:\.\d+)?)` right after a price keyword,
returning the capture group. The backtracking of `\s*` and of the optional
currency character can never turn a failure into a success (shorter
whitespace leaves a whitespace character where a digit is required), so the
match is deterministic. -/
def priceAfterKeyword (rest : List Char) : Option (List Char) :=
  let r1 := rest.dropWhile isPySpace
  let r2 := match r1 with
    | c :: tl => if isCurrency c then tl else c :: tl
    | [] => []
  let ds := r2.takeWhile Char.isDigit
  if ds.isEmpty then none
  else
    match commaGroups (r2.dropWhile Char.isDigit) with
    | (g, r) => some (ds ++ g ++ decimalPart r)

/-- Leftmost search of the price pattern
`(?:under|below|max)\s*[Â£$]?(\d+(?:,\d{3})*(?:\.\d+)?)` with
`re.IGNORECASE`. The three keywords start with pairwise distinct letters,
so at most one alternative can match at a given position. -/
def priceSearch : List Char → Option (List Char)
  | [] => none
  | c :: cs =>
    let attempt :=
      match matchLit ['u', 'n', 'd', 'e', 'r'] (c :: cs) with
      | some r => priceAfterKeyword r
      | none =>
        match matchLit ['b', 'e', 'l', 'o', 'w'] (c :: cs) with
        | some r => priceAfterKeyword r
        | none =>
          match matchLit ['m', 'a', 'x'] (c :: cs) with
          | some r => priceAfterKeyword r
          | none => none
    match attempt with
    | some g => some g
    | none => priceSearch cs

/-- Decimal digits to a natural number. -/
def digitsToNat (l : List Char) : Nat :=
  l.foldl (fun n c => 10 * n + (c.toNat - '0'.toNat)) 0

/-- Python `float(group.replace(",", ""))` on a capture of the price
pattern, modelled as an exact rational. -/
def parsePrice (g : List Char) : ℚ :=
  let g2 := g.filter (fun c => !(c = ','))
  let ip := g2.takeWhile Char.isDigit
  match g2.dropWhile Char.isDigit with
  | c :: ds =>
    if c = '.' then (digitsToNat ip : ℚ) + (digitsToNat ds : ℚ) / ((10 : ℚ) ^ ds.length)
    else (digitsToNat ip : ℚ)
  | [] => (digitsToNat ip : ℚ)

/-- The max-price field of `extract_intent`. -/
def extractMaxPrice (q : String) : Option ℚ :=
  (priceSearch q.toList).map parsePrice

/-- The amenities field of `extract_intent`: every canonical amenity whose
canonical name or one of whose synonyms occurs (case-insensitively) in the
query. The source collects matches in a Python `set` and converts it to a
list, so only membership is specified; the model lists the matches in
vocabulary order. -/
def extractAmenities (q : String) : List String :=
  key_amenities.filter (fun a =>
    strContains (pyLower q) (pyLower a) ||
      (synonymsOf a).any (fun s => strContains (pyLower q) (pyLower s)))

/-- The structured result of `extract_intent`. -/
structure Intent where
  location : Option String
  maxPrice : Option ℚ
  amenities : List String
deriving Repr, DecidableEq

/-- `extract_intent` from the source. -/
def extractIntent (q : String) : Intent :=
  { location := extractLocation q
    maxPrice := extractMaxPrice q
    amenities := extractAmenities q }

/-- The loop of `normalize_amenity` over the synonym table: return the
first canonical name whose canonical form or one of whose variants occurs
in the (already lowercased) text. -/
def normalizeFrom (t : String) : List (String × List String) → Option String
  | [] => none
  | (canonical, variants) :: rest =>
    if strContains t canonical then some canonical
    else if variants.any (fun v => strContains t v) then some canonical
    else normalizeFrom t rest

/-- `normalize_amenity` from the source: iterates over `AMENITY_SYNONYMS`
(not over `key_amenities`). -/
def normalizeAmenity (userText : String) : Option String :=
  normalizeFrom (pyLower userText) AMENITY_SYNONYMS

/-- A listing row: city, price, precomputed description embedding (of the
abstract embedding type `E`) and the boolean-or-numeric amenity flags,
modelled as an association list so that `row.get(a, 0)` is a lookup with
default `0`. -/
structure Listing (E : Type) where
  city : String
  price : ℚ
  descriptionEmbedding : E
  amenities : List (String × ℚ)

/-- `row.get(a, 0)` from the source: the stored amenity flag, defaulting
to `0`. -/
def Listing.getFlag {E : Type} (row : Listing E) (a : String) : ℚ :=
  match row.amenities.find? (fun p => p.1 == a) with
  | some p => p.2
  | none => 0

/-- `final_score` from the source. `cos` abstracts sklearn's
`cosine_similarity` on the embedding type `E`. -/
def finalScore {E : Type} (cos : E → E → ℚ) (row : Listing E) (queryEmbedding : E)
    (requestedAmenities : List String) (maxPrice : Option ℚ) : ℚ :=
  let semanticSim := cos row.descriptionEmbedding queryEmbedding
  let amenitySim : ℚ :=
    if requestedAmenities.isEmpty then 0
    else (requestedAmenities.map row.getFlag).sum / (requestedAmenities.length : ℚ)
  let pricePenalty : ℚ :=
    match maxPrice with
    | some mp => if mp < row.price then (row.price - mp) / mp else 0
    | none => 0
  semanticSim + amenitySim - pricePenalty

/-- Insert into an ascending-by-score list, before the first strictly
greater score (so that, within `sortAscByScore`, earlier rows stay before
later rows with equal scores). -/
def insertAsc {E : Type} (x : Listing E × ℚ) :
    List (Listing E × ℚ) → List (Listing E × ℚ)
  | [] => [x]
  | y :: ys => if x.2 ≤ y.2 then x :: y :: ys else y :: insertAsc x ys

/-- Stable ascending sort by score (insertion sort). -/
def sortAscByScore {E : Type} (l : List (Listing E × ℚ)) : List (Listing E × ℚ) :=
  l.foldr insertAsc []

/-- Modelled from pandas (external library):
`df.sort_values("score", ascending=False)` computes an ascending argsort of
the score column and reverses the resulting indexer
(`pandas.core.sorting.nargsort`); the underlying numpy argsort is modelled
as a stable ascending sort, which is exact for the small inputs considered
here (numpy's default sort runs stable insertion sort on short arrays).
Consequently rows with equal scores come out in reversed input order. -/
def pandasSortDesc {E : Type} (l : List (Listing E × ℚ)) : List (Listing E × ℚ) :=
  (sortAscByScore l).reverse

/-- `location.strip().strip('"').strip("'")` from `search_listings`. -/
def trimLocation (loc : String) : String :=
  String.mk (stripWith (fun c => c = '\'')
    (stripWith (fun c => c = '"') (stripWith isPySpace loc.toList)))

/-- The location value actually used by `search_listings`: Python's
`if location:` treats `None` and the empty string as absent, and a truthy
location is trimmed of whitespace and quote characters. -/
def locationFilterValue (intent : Intent) : Option String :=
  match intent.location with
  | some loc => if loc = "" then some loc else some (trimLocation loc)
  | none => none

/-- The filtering phase of `search_listings`: the location filter (when the
location is truthy) followed by the price filter (when a max price was
extracted). -/
def filteredListings {E : Type} (df : List (Listing E)) (q : String) :
    List (Listing E) :=
  let intent := extractIntent q
  let df1 := match locationFilterValue intent with
    | some loc =>
      if loc = "" then df
      else df.filter (fun r => pyLower r.city == pyLower loc)
    | none => df
  match intent.maxPrice with
  | some mp => df1.filter (fun r => decide (r.price ≤ mp))
  | none => df1

/-- `search_listings` from the source: extract intent, keep the extracted
amenities that belong to the passed vocabulary, filter by location and
price, embed the query, score every remaining row, sort descending by
score and return the first 10 rows. -/
def searchListings {E : Type} (cos : E → E → ℚ) (embedQuery : String → E)
    (df : List (Listing E)) (userQuery : String) (keyAms : List String) :
    List (Listing E × ℚ) :=
  let intent := extractIntent userQuery
  let requestedAmenities := intent.amenities.filter (fun a => keyAms.contains a)
  let qe := embedQuery userQuery
  let scored := (filteredListings df userQuery).map
    (fun r => (r, finalScore cos r qe requestedAmenities intent.maxPrice))
  (pandasSortDesc scored).take 10

/-! ## Shared helper lemmas -/

/-- Unfolding lemma for `termAt` on a non-empty list. -/
lemma termAt_cons (c : Char) (l : List Char) : termAt (c :: l) = (isPySpace c || c = ',') := rfl

/-- Prefix tests are preserved by mapping a function over both lists. -/
lemma listStartsWith_map (f : Char → Char) :
    ∀ n h : List Char, listStartsWith h n = true →
      listStartsWith (h.map f) (n.map f) = true := by
  intro n
  induction n with
  | nil => intro h _; cases h <;> rfl
  | cons d ds ih =>
    intro h hs
    cases h with
    | nil => simp [listStartsWith] at hs
    | cons c cs =>
      simp only [listStartsWith, Bool.and_eq_true, decide_eq_true_eq] at hs
      simp only [List.map_cons, listStartsWith, Bool.and_eq_true, decide_eq_true_eq]
      exact ⟨by rw [hs.1], ih cs hs.2⟩

/-- Substring tests are preserved by mapping a function over both lists. -/
lemma listContainsSub_map (f : Char → Char) :
    ∀ h n : List Char, listContainsSub h n = true →
      listContainsSub (h.map f) (n.map f) = true := by
  intro h
  induction h with
  | nil => intro n hn; cases n <;> simp_all [listContainsSub, listStartsWith]
  | cons c cs ih =>
    intro n hn
    simp only [listContainsSub, Bool.or_eq_true] at hn ⊢
    rcases hn with hn | hn
    · exact Or.inl (listStartsWith_map f n (c :: cs) hn)
    · exact Or.inr (ih n hn)

/-- A substring of a string is (after lowercasing both) a substring of the
lowercased string. -/
lemma strContains_pyLower (q n : String) (h : strContains q n = true) :
    strContains (pyLower q) (pyLower n) = true := by
  have := listContainsSub_map Char.toLower q.toList n.toList h
  simpa [strContains, pyLower] using this

/-! ## C1: the scoring formula -/

/-- Spec-side amenity ratio, following the spec's words:
`amenity_ratio = (sum of flags) / |requested_amenities|` if the requested
set is non-empty, else `0`. -/
def specAmenityRatio {E : Type} (row : Listing E) (req : List String) : ℚ :=
  if req = [] then 0 else (req.map row.getFlag).sum / (req.length : ℚ)

/-- Spec-side price penalty, following the spec's words:
`price_penalty = max(0, (listing.price - max_price) / max_price)` if a max
price is given, else `0`. -/
def specPricePenalty {E : Type} (row : Listing E) (mp : Option ℚ) : ℚ :=
  match mp with
  | some m => max 0 ((row.price - m) / m)
  | none => 0

/-- C1 (confirmed): for every listing row, query embedding, requested
amenity list and optional positive max price, `final_score` returns exactly
`semantic + amenity_ratio - price_penalty`, where `semantic` is the cosine
similarity of the row's description embedding and the query embedding,
`amenity_ratio` is the flag sum over the requested amenities divided by
their number (`0` for an empty request, with no division fault), and
`price_penalty` is `max(0, (price - max_price) / max_price)` when a max
price is given and `0` otherwise. -/
theorem C1_finalScore_formula {E : Type} (cos : E → E → ℚ) (row : Listing E)
    (qe : E) (req : List String) (mp : Option ℚ)
    (hmp : ∀ m, mp = some m → 0 < m) :
    finalScore cos row qe req mp =
      cos row.descriptionEmbedding qe + specAmenityRatio row req - specPricePenalty row mp := by
  have hA : (if req.isEmpty then (0 : ℚ)
      else (req.map row.getFlag).sum / (req.length : ℚ)) = specAmenityRatio row req := by
    cases req with
    | nil => simp [specAmenityRatio]
    | cons a as => simp [specAmenityRatio]
  cases mp with
  | none =>
    simp only [finalScore, specPricePenalty]
    rw [hA]
  | some m =>
    have hm : 0 < m := hmp m rfl
    have hP : (if m < row.price then (row.price - m) / m else 0) =
        specPricePenalty row (some m) := by
      by_cases hlt : m < row.price
      · simp only [specPricePenalty, if_pos hlt]
        exact (max_eq_right (div_nonneg (sub_nonneg.2 hlt.le) hm.le)).symm
      · simp only [specPricePenalty, if_neg hlt]
        exact (max_eq_left
          (div_nonpos_of_nonpos_of_nonneg (sub_nonpos.2 (le_of_not_lt hlt)) hm.le)).symm
    simp only [finalScore]
    rw [hA, hP]

/-- Concrete row used by witnesses. -/
def rowW : Listing Unit :=
  { city := "Rome", price := 3, descriptionEmbedding := (), amenities := [("wifi", 1)] }

/-- A concrete cosine-similarity stand-in for witnesses. -/
def cosW : Unit → Unit → ℚ := fun _ _ => 0

/-- A concrete query embedder for witnesses. -/
def embW : String → Unit := fun _ => ()

/-- Witness for C1 at a concrete positive max price. -/
theorem C1_witness :
    finalScore cosW rowW () ["wifi"] (some 2) =
      cosW rowW.descriptionEmbedding () + specAmenityRatio rowW ["wifi"] -
        specPricePenalty rowW (some 2) :=
  C1_finalScore_formula cosW rowW () ["wifi"] (some 2)
    (by intro m hm; rw [Option.some.injEq] at hm; subst hm; decide)

/-! ## C5: amenity normalization -/

/-- The loop of `normalize_amenity` is a first-match search over the
synonym table. -/
lemma normalizeFrom_eq_find (t : String) :
    ∀ l : List (String × List String),
      normalizeFrom t l =
        (l.find? (fun p => strContains t p.1 || p.2.any (fun v => strContains t v))).map
          Prod.fst := by
  intro l
  induction l with
  | nil => rfl
  | cons hd tl ih =>
    rcases hd with ⟨c, vs⟩
    by_cases h1 : strContains t c = true
    · simp [normalizeFrom, List.find?_cons, h1]
    · by_cases h2 : vs.any (fun v => strContains t v) = true
      · simp [normalizeFrom, List.find?_cons, h1, h2]
      · simp [normalizeFrom, List.find?_cons, h1, h2, ih]

/-- C5 counterexample: "kitchen" is a canonical amenity of the full
vocabulary with no synonym entry, yet a text containing it normalizes to
no match — refuting the claim that normalization covers the full canonical
vocabulary. -/
theorem C5_counterexample :
    "kitchen" ∈ key_amenities ∧
      strContains (pyLower "a flat with kitchen") "kitchen" = true ∧
      normalizeAmenity "a flat with kitchen" = none := by
  decide

/-- C5 (amended): `normalize_amenity` returns the first canonical name of
the synonym table (`AMENITY_SYNONYMS`, in insertion order, six entries —
not the full canonical vocabulary) whose canonical form or one of whose
synonyms occurs in the lowercased text, and `none` when no synonym-table
entry matches; canonical amenities without a synonym entry never match. -/
theorem C5_normalizeAmenity_amended :
    (∀ t : String,
      normalizeAmenity t =
        (AMENITY_SYNONYMS.find? (fun p =>
          strContains (pyLower t) p.1 ||
            p.2.any (fun v => strContains (pyLower t) v))).map Prod.fst) ∧
    (∀ (t c : String), normalizeAmenity t = some c → c ∈ AMENITY_SYNONYMS.map Prod.fst) := by
  constructor
  · intro t
    exact normalizeFrom_eq_find (pyLower t) AMENITY_SYNONYMS
  · intro t c h
    rw [normalizeAmenity, normalizeFrom_eq_find] at h
    rcases Option.map_eq_some'.1 h with ⟨p, hp, hpc⟩
    exact hpc ▸ List.mem_map_of_mem Prod.fst (List.mem_of_find?_eq_some hp)

/-- Witness for C5's amended theorem (its second part has hypotheses):
normalizing a text containing "jacuzzi" yields a synonym-table key. -/
theorem C5_witness : "hot tub" ∈ AMENITY_SYNONYMS.map Prod.fst :=
  C5_normalizeAmenity_amended.2 "a jacuzzi here" "hot tub" (by decide)

/-! ## C6: amenity intent extraction -/

/-- C6 (confirmed): a canonical amenity is extracted from a query exactly
when its canonical name or one of its synonyms occurs case-insensitively
(i.e. after lowercasing both sides) as a substring of the query; matches
are independent across amenities, and any query containing "jacuzzi"
yields an amenity set containing "hot tub". -/
theorem C6_extractAmenities_iff :
    (∀ q a : String, a ∈ key_amenities →
      (a ∈ extractAmenities q ↔
        (strContains (pyLower q) (pyLower a) = true ∨
          ∃ s ∈ synonymsOf a, strContains (pyLower q) (pyLower s) = true))) ∧
    (∀ q : String, strContains q "jacuzzi" = true → "hot tub" ∈ extractAmenities q) := by
  have hmem : ∀ q a : String, a ∈ key_amenities →
      (a ∈ extractAmenities q ↔
        (strContains (pyLower q) (pyLower a) = true ∨
          ∃ s ∈ synonymsOf a, strContains (pyLower q) (pyLower s) = true)) := by
    intro q a ha
    simp [extractAmenities, List.mem_filter, ha, List.any_eq_true]
  refine ⟨hmem, ?_⟩
  intro q hq
  have hlow : strContains (pyLower q) "jacuzzi" = true := by
    have := strContains_pyLower q "jacuzzi" hq
    simpa using this
  refine (hmem q "hot tub" (by decide)).2 (Or.inr ⟨"jacuzzi", by decide, ?_⟩)
  simpa using hlow

/-- Witness for C6 at concrete queries. -/
theorem C6_witness :
    "wifi" ∈ extractAmenities "free wifi" ∧ "hot tub" ∈ extractAmenities "has jacuzzi" :=
  ⟨(C6_extractAmenities_iff.1 "free wifi" "wifi" (by decide)).2 (Or.inl (by decide)),
    C6_extractAmenities_iff.2 "has jacuzzi" (by decide)⟩

/-! ## C7: location extraction -/

/-- A position whose first character cannot start `in` or `at` never
matches the location pattern. -/
lemma locAttempt_none (b : Bool) (c d : Char) (rest : List Char)
    (hc1 : c.toLower ≠ 'i') (hc2 : c.toLower ≠ 'a') :
    locAttempt b (c :: d :: rest) = none := by
  simp [locAttempt, hc1, hc2]

/-- The character preceding the scan position after traversing `p`, given
that `prev` preceded `p`. -/
def lastOr (p : List Char) (prev : Option Char) : Option Char :=
  match p with
  | [] => prev
  | c :: cs => lastOr cs (some c)

/-- Scanning a prefix without `i`/`a` letters (case-insensitively) finds no
location match; the scan continues after the prefix, remembering its last
character for the word boundary. -/
lemma locSearch_skip (p : List Char) :
    ∀ (prev : Option Char) (l : List Char),
      (∀ c ∈ p, ¬(c.toLower = 'i' ∨ c.toLower = 'a')) →
      locSearch prev (p ++ l) = locSearch (lastOr p prev) l := by
  induction p with
  | nil => intro prev l _; rfl
  | cons c cs ih =>
    intro prev l hp
    have hc := hp c (List.mem_cons_self c cs)
    have hc1 : c.toLower ≠ 'i' := fun h => hc (Or.inl h)
    have hc2 : c.toLower ≠ 'a' := fun h => hc (Or.inr h)
    have step : locSearch prev ((c :: cs) ++ l) = locSearch (some c) (cs ++ l) := by
      rw [List.cons_append]
      cases hcs : cs ++ l with
      | nil => simp [locSearch, locAttempt]
      | cons d ds =>
        have hn : ∀ b, locAttempt b (c :: d :: ds) = none :=
          fun b => locAttempt_none b c d ds hc1 hc2
        simp [locSearch, hn]
    rw [step, ih (some c) l (fun x hx => hp x (List.mem_cons_of_mem c hx))]
    rfl

/-- A successful match of `in` at a word boundary returns the capture of
the rest of the pattern. -/
lemma locSearch_in (prev : Option Char) (hprev : ∀ c, prev = some c → isWordChar c = false)
    (rest g : List Char) (h : matchAfterToken rest = some g) :
    locSearch prev ('i' :: 'n' :: rest) = some g := by
  have e1 : 'i'.toLower = 'i' := by decide
  have e2 : 'n'.toLower = 'n' := by decide
  cases prev with
  | none => simp [locSearch, locAttempt, e1, e2, h]
  | some p =>
    have hp : isWordChar p = false := hprev p rfl
    simp [locSearch, locAttempt, e1, e2, hp, h]

/-- A successful match of `at` at a word boundary returns the capture of
the rest of the pattern. -/
lemma locSearch_at (prev : Option Char) (hprev : ∀ c, prev = some c → isWordChar c = false)
    (rest g : List Char) (h : matchAfterToken rest = some g) :
    locSearch prev ('a' :: 't' :: rest) = some g := by
  have e1 : 'a'.toLower = 'a' := by decide
  have e2 : 't'.toLower = 't' := by decide
  cases prev with
  | none => simp [locSearch, locAttempt, e1, e2, h]
  | some p =>
    have hp : isWordChar p = false := hprev p rfl
    simp [locSearch, locAttempt, e1, e2, hp, h]

/-- The lazy capture on `London` followed by a terminator captures exactly
`London`. -/
lemma lazyCapture_london (t : List Char) (h : termAt t = true) :
    lazyCapture ('L' :: 'o' :: 'n' :: 'd' :: 'o' :: 'n' :: t) =
      some ['L', 'o', 'n', 'd', 'o', 'n'] := by
  simp [lazyCapture, termAt_cons, h, locClass, isPySpace]

/-- With a single whitespace character the greedy `\s+` takes exactly that
character and hands over to the lazy capture. -/
lemma matchAfterToken_space (l : List Char) (h0 : l.takeWhile isPySpace = [])
    (g : List Char) (h : lazyCapture l = some g) :
    matchAfterToken (' ' :: l) = some g := by
  simp [matchAfterToken, List.takeWhile_cons, h0, tryWsDown, h, isPySpace]

/-- C7 counterexample: a query containing "in London" for which location
extraction does not return "London" (the leftmost match wins). -/
theorem C7_counterexample :
    strContains "in Paris in London" "in London" = true ∧
    (extractIntent "in Paris in London").location = some "Paris" ∧
    some "Paris" ≠ some "London" := by
  decide

/-- C7 (amended): for every query of the form `p ++ "in London" ++ t` (or
`p ++ "at London" ++ t`) in which the prefix `p` contains no `i`/`a`
letters (so the appended pattern is the first candidate match) and ends in
a non-word character or is empty (so the word boundary holds), and the
suffix `t` is empty or starts with whitespace or a comma (so the lazy
capture stops right after "London"), intent extraction returns location
`"London"`; in general the location is the trimmed capture of the first
match of the pattern, and is absent when there is no match. -/
theorem C7_location_london_amended (p t : String)
    (hp : ∀ c ∈ p.toList, ¬(c.toLower = 'i' ∨ c.toLower = 'a'))
    (hb : ((lastOr p.toList none).all fun c => !(isWordChar c)) = true)
    (ht : t.toList = [] ∨ ∃ c tl, t.toList = c :: tl ∧ (isPySpace c = true ∨ c = ',')) :
    (extractIntent (p ++ "in London" ++ t)).location = some "London" ∧
    (extractIntent (p ++ "at London" ++ t)).location = some "London" := by
  have hterm : termAt t.toList = true := by
    rcases ht with h | ⟨c, tl, heq, hc⟩
    · rw [h]; rfl
    · rw [heq, termAt_cons]
      rcases hc with h | h <;> simp [h]
  have hlondon := lazyCapture_london t.toList hterm
  have hmat : matchAfterToken
      (' ' :: ('L' :: 'o' :: 'n' :: 'd' :: 'o' :: 'n' :: t.toList)) =
      some ['L', 'o', 'n', 'd', 'o', 'n'] := by
    apply matchAfterToken_space
    · simp [List.takeWhile_cons, isPySpace]
    · exact hlondon
  have hprev : ∀ c, lastOr p.toList none = some c → isWordChar c = false := by
    intro c hc
    rw [hc] at hb
    simpa using hb
  constructor
  · show extractLocation (p ++ "in London" ++ t) = some "London"
    have hq : (p ++ "in London" ++ t).toList =
        p.toList ++ ('i' :: 'n' ::
          (' ' :: ('L' :: 'o' :: 'n' :: 'd' :: 'o' :: 'n' :: t.toList))) := by
      have h1 : (p ++ "in London" ++ t).toList = p.toList ++ ("in London".toList ++ t.toList) := by
        simp [List.append_assoc]
      rw [h1]; rfl
    simp only [extractLocation, hq]
    rw [locSearch_skip p.toList none _ hp, locSearch_in _ hprev _ _ hmat]
    decide
  · show extractLocation (p ++ "at London" ++ t) = some "London"
    have hq : (p ++ "at London" ++ t).toList =
        p.toList ++ ('a' :: 't' ::
          (' ' :: ('L' :: 'o' :: 'n' :: 'd' :: 'o' :: 'n' :: t.toList))) := by
      have h1 : (p ++ "at London" ++ t).toList = p.toList ++ ("at London".toList ++ t.toList) := by
        simp [List.append_assoc]
      rw [h1]; rfl
    simp only [extractLocation, hq]
    rw [locSearch_skip p.toList none _ hp, locSearch_at _ hprev _ _ hmat]
    decide

/-- Witness for C7's amended theorem at a concrete prefix and empty
suffix. -/
theorem C7_witness :
    (extractIntent ("room " ++ "in London" ++ "")).location = some "London" ∧
    (extractIntent ("room " ++ "at London" ++ "")).location = some "London" :=
  C7_location_london_amended "room " "" (by decide) (by decide) (Or.inl rfl)

/-! ## C8: max-price extraction -/

/-- A keyword literal fails immediately on a wrong first character. -/
lemma matchLit_head_ne (k : Char) (ks : List Char) (c : Char) (cs : List Char)
    (h : c.toLower ≠ k) : matchLit (k :: ks) (c :: cs) = none := by
  simp [matchLit, h]

/-- Scanning a prefix without `u`/`b`/`m` letters (case-insensitively)
finds no price match. -/
lemma priceSearch_skip (p : List Char) :
    ∀ l : List Char,
      (∀ c ∈ p, ¬(c.toLower = 'u' ∨ c.toLower = 'b' ∨ c.toLower = 'm')) →
      priceSearch (p ++ l) = priceSearch l := by
  induction p with
  | nil => intro l _; rfl
  | cons c cs ih =>
    intro l hp
    have hc := hp c (List.mem_cons_self c cs)
    have h1 : matchLit ['u', 'n', 'd', 'e', 'r'] (c :: (cs ++ l)) = none :=
      matchLit_head_ne _ _ _ _ (fun h => hc (Or.inl h))
    have h2 : matchLit ['b', 'e', 'l', 'o', 'w'] (c :: (cs ++ l)) = none :=
      matchLit_head_ne _ _ _ _ (fun h => hc (Or.inr (Or.inl h)))
    have h3 : matchLit ['m', 'a', 'x'] (c :: (cs ++ l)) = none :=
      matchLit_head_ne _ _ _ _ (fun h => hc (Or.inr (Or.inr h)))
    rw [List.cons_append]
    calc priceSearch (c :: (cs ++ l)) = priceSearch (cs ++ l) := by
          simp [priceSearch, h1, h2, h3]
      _ = priceSearch l := ih l (fun x hx => hp x (List.mem_cons_of_mem c hx))

/-- Hypothesis shape for the text following a price number: empty, or
starting with a character that can extend neither the digit run, the
thousands groups, nor the decimal part. -/
def priceStop (t : List Char) : Prop :=
  t = [] ∨ ∃ c tl, t = c :: tl ∧ c.isDigit = false ∧ c ≠ ',' ∧ c ≠ '.'

/-- After a price keyword, a single space, no currency symbol and the
digits `200` followed by a stopping suffix capture exactly `200`. -/
lemma priceAfterKeyword_200 (t : List Char) (ht : priceStop t) :
    priceAfterKeyword (' ' :: '2' :: '0' :: '0' :: t) = some ['2', '0', '0'] := by
  have htw : t.takeWhile Char.isDigit = [] := by
    rcases ht with rfl | ⟨c, tl, rfl, hd, _, _⟩
    · rfl
    · simp [List.takeWhile_cons, hd]
  have hdw : t.dropWhile Char.isDigit = t := by
    rcases ht with rfl | ⟨c, tl, rfl, hd, _, _⟩
    · rfl
    · simp [List.dropWhile_cons, hd]
  have hcg : commaGroups t = ([], t) := by
    rcases ht with rfl | ⟨c, tl, rfl, _, hc, _⟩
    · rfl
    · rcases tl with _ | ⟨a, _ | ⟨b, _ | ⟨d, rest⟩⟩⟩ <;> simp [commaGroups, hc]
  have hdp : decimalPart t = [] := by
    rcases ht with rfl | ⟨c, tl, rfl, _, _, hp⟩
    · rfl
    · simp [decimalPart, hp]
  simp [priceAfterKeyword, List.dropWhile_cons, List.takeWhile_cons, isPySpace, isCurrency,
    htw, hdw, hcg, hdp]

/-- Same as `priceAfterKeyword_200` with the pound sign of `max £200`
consumed by the currency class. -/
lemma priceAfterKeyword_pound_200 (t : List Char) (ht : priceStop t) :
    priceAfterKeyword (' ' :: '£' :: '2' :: '0' :: '0' :: t) = some ['2', '0', '0'] := by
  have htw : t.takeWhile Char.isDigit = [] := by
    rcases ht with rfl | ⟨c, tl, rfl, hd, _, _⟩
    · rfl
    · simp [List.takeWhile_cons, hd]
  have hdw : t.dropWhile Char.isDigit = t := by
    rcases ht with rfl | ⟨c, tl, rfl, hd, _, _⟩
    · rfl
    · simp [List.dropWhile_cons, hd]
  have hcg : commaGroups t = ([], t) := by
    rcases ht with rfl | ⟨c, tl, rfl, _, hc, _⟩
    · rfl
    · rcases tl with _ | ⟨a, _ | ⟨b, _ | ⟨d, rest⟩⟩⟩ <;> simp [commaGroups, hc]
  have hdp : decimalPart t = [] := by
    rcases ht with rfl | ⟨c, tl, rfl, _, _, hp⟩
    · rfl
    · simp [decimalPart, hp]
  simp [priceAfterKeyword, List.dropWhile_cons, List.takeWhile_cons, isPySpace, isCurrency,
    htw, hdw, hcg, hdp]

/-- One-step unfolding of the leftmost price search on a non-empty list. -/
lemma priceSearch_cons (c : Char) (cs : List Char) :
    priceSearch (c :: cs) =
      (match (match matchLit ['u', 'n', 'd', 'e', 'r'] (c :: cs) with
        | some r => priceAfterKeyword r
        | none =>
          match matchLit ['b', 'e', 'l', 'o', 'w'] (c :: cs) with
          | some r => priceAfterKeyword r
          | none =>
            match matchLit ['m', 'a', 'x'] (c :: cs) with
            | some r => priceAfterKeyword r
            | none => none) with
      | some g => some g
      | none => priceSearch cs) := rfl

/-- C8 counterexample: a query containing "under 200" whose extracted max
price is 100 (the leftmost price keyword wins). -/
theorem C8_counterexample :
    strContains "under 100 or under 200" "under 200" = true ∧
    (extractIntent "under 100 or under 200").maxPrice = some 100 ∧
    some (100 : ℚ) ≠ some (200 : ℚ) := by
  decide

/-- C8 (amended): for every query of the form `p ++ "under 200" ++ t` or
`p ++ "max £200" ++ t` in which the prefix `p` contains no `u`/`b`/`m`
letters (so the appended pattern is the first candidate match) and the
suffix `t` is empty or starts with a character that is neither a digit nor
a comma nor a dot (so the number capture stops at `200`), intent
extraction returns max price `200.0`; in general the max price is the
parsed capture of the first match of the price pattern (with thousands
separators stripped), and is absent when there is no match. -/
theorem C8_price_200_amended (p t : String)
    (hp : ∀ c ∈ p.toList, ¬(c.toLower = 'u' ∨ c.toLower = 'b' ∨ c.toLower = 'm'))
    (ht : priceStop t.toList) :
    (extractIntent (p ++ "under 200" ++ t)).maxPrice = some 200 ∧
    (extractIntent (p ++ "max £200" ++ t)).maxPrice = some 200 := by
  constructor
  · show extractMaxPrice (p ++ "under 200" ++ t) = some 200
    have hq : (p ++ "under 200" ++ t).toList =
        p.toList ++ ('u' :: 'n' :: 'd' :: 'e' :: 'r' ::
          (' ' :: '2' :: '0' :: '0' :: t.toList)) := by
      have h1 : (p ++ "under 200" ++ t).toList =
          p.toList ++ ("under 200".toList ++ t.toList) := by
        simp [List.append_assoc]
      rw [h1]; rfl
    have hu : matchLit ['u', 'n', 'd', 'e', 'r']
        ('u' :: 'n' :: 'd' :: 'e' :: 'r' :: (' ' :: '2' :: '0' :: '0' :: t.toList)) =
        some (' ' :: '2' :: '0' :: '0' :: t.toList) := by
      simp [matchLit]
    simp only [extractMaxPrice, hq]
    rw [priceSearch_skip p.toList _ hp]
    have hsearch : priceSearch
        ('u' :: 'n' :: 'd' :: 'e' :: 'r' :: (' ' :: '2' :: '0' :: '0' :: t.toList)) =
        some ['2', '0', '0'] := by
      rw [priceSearch_cons, hu]
      simp only [priceAfterKeyword_200 t.toList ht]
    rw [hsearch]
    decide
  · show extractMaxPrice (p ++ "max £200" ++ t) = some 200
    have hq : (p ++ "max £200" ++ t).toList =
        p.toList ++ ('m' :: 'a' :: 'x' ::
          (' ' :: '£' :: '2' :: '0' :: '0' :: t.toList)) := by
      have h1 : (p ++ "max £200" ++ t).toList =
          p.toList ++ ("max £200".toList ++ t.toList) := by
        simp [List.append_assoc]
      rw [h1]; rfl
    have hu : matchLit ['u', 'n', 'd', 'e', 'r']
        ('m' :: 'a' :: 'x' :: (' ' :: '£' :: '2' :: '0' :: '0' :: t.toList)) = none := by
      simp [matchLit]
    have hb : matchLit ['b', 'e', 'l', 'o', 'w']
        ('m' :: 'a' :: 'x' :: (' ' :: '£' :: '2' :: '0' :: '0' :: t.toList)) = none := by
      simp [matchLit]
    have hm : matchLit ['m', 'a', 'x']
        ('m' :: 'a' :: 'x' :: (' ' :: '£' :: '2' :: '0' :: '0' :: t.toList)) =
        some (' ' :: '£' :: '2' :: '0' :: '0' :: t.toList) := by
      simp [matchLit]
    simp only [extractMaxPrice, hq]
    rw [priceSearch_skip p.toList _ hp]
    have hsearch : priceSearch
        ('m' :: 'a' :: 'x' :: (' ' :: '£' :: '2' :: '0' :: '0' :: t.toList)) =
        some ['2', '0', '0'] := by
      rw [priceSearch_cons, hu, hb, hm]
      simp only [priceAfterKeyword_pound_200 t.toList ht]
    rw [hsearch]
    decide

/-- Witness for C8's amended theorem at a concrete prefix and empty
suffix. -/
theorem C8_witness :
    (extractIntent ("flat " ++ "under 200" ++ "")).maxPrice = some 200 ∧
    (extractIntent ("flat " ++ "max £200" ++ "")).maxPrice = some 200 :=
  C8_price_200_amended "flat " "" (by decide) (Or.inl rfl)

/-! ## C10: extracted locations are single words -/

/-- Unfolding lemma for `lazyCapture` on a non-empty list. -/
lemma lazyCapture_cons (c : Char) (cs : List Char) :
    lazyCapture (c :: cs) =
      if locClass c then
        if termAt cs then some [c]
        else
          match lazyCapture cs with
          | some g => some (c :: g)
          | none => none
      else none := rfl

/-- A successful lazy capture starts with the first input character. -/
lemma lazyCapture_head (l g : List Char) (h : lazyCapture l = some g) :
    ∃ c tl gl, l = c :: tl ∧ g = c :: gl := by
  cases l with
  | nil => simp [lazyCapture] at h
  | cons c cs =>
    refine ⟨c, cs, ?_⟩
    by_cases h1 : locClass c = true
    · by_cases h2 : termAt cs = true
      · rw [lazyCapture_cons, if_pos h1, if_pos h2] at h
        injection h with he
        exact ⟨[], rfl, he.symm⟩
      · rw [lazyCapture_cons, if_pos h1, if_neg h2] at h
        cases h3 : lazyCapture cs with
        | none => rw [h3] at h; exact absurd h (by simp)
        | some g' =>
          rw [h3] at h
          have h' : some (c :: g') = some g := h
          injection h' with he
          exact ⟨g', rfl, he.symm⟩
    · rw [lazyCapture_cons, if_neg h1] at h
      exact absurd h (by simp)

/-- Every capture character after the first one is a non-whitespace
character: the lazy group stops as soon as the terminator (whitespace,
comma or end) could match. -/
lemma lazyCapture_tail_nonspace :
    ∀ l g : List Char, lazyCapture l = some g → ∀ d ∈ g.tail, isPySpace d = false := by
  intro l
  induction l with
  | nil => intro g h; simp [lazyCapture] at h
  | cons c cs ih =>
    intro g h d hd
    by_cases h1 : locClass c = true
    · by_cases h2 : termAt cs = true
      · rw [lazyCapture_cons, if_pos h1, if_pos h2] at h
        injection h with he
        rw [← he] at hd
        exact absurd hd (by simp)
      · rw [lazyCapture_cons, if_pos h1, if_neg h2] at h
        cases h3 : lazyCapture cs with
        | none => rw [h3] at h; exact absurd h (by simp)
        | some g' =>
          rw [h3] at h
          have h' : some (c :: g') = some g := h
          injection h' with he
          obtain ⟨c2, tl, gl, hcs, hg'⟩ := lazyCapture_head cs g' h3
          have hc2 : isPySpace c2 = false := by
            rw [hcs, termAt_cons] at h2
            simp only [Bool.or_eq_true, not_or] at h2
            simpa using h2.1
          rw [← he] at hd
          simp only [List.tail_cons] at hd
          rw [hg'] at hd
          rcases List.mem_cons.1 hd with rfl | hd2
          · exact hc2
          · have := ih g' h3 d
            rw [hg'] at this
            exact this (by simpa using hd2)
    · rw [lazyCapture_cons, if_neg h1] at h
      exact absurd h (by simp)

/-- Elements survive `dropWhile`. -/
lemma mem_of_mem_dropWhile (p : Char → Bool) :
    ∀ (l : List Char) (d : Char), d ∈ l.dropWhile p → d ∈ l := by
  intro l
  induction l with
  | nil => intro d hd; simp at hd
  | cons c cs ih =>
    intro d hd
    rw [List.dropWhile_cons] at hd
    by_cases hc : p c = true
    · rw [if_pos hc] at hd
      exact List.mem_cons_of_mem c (ih d hd)
    · rw [if_neg hc] at hd
      exact hd

/-- `dropWhile` is the identity on lists with no satisfying element. -/
lemma dropWhile_eq_self_of_none (p : Char → Bool) (l : List Char)
    (h : ∀ d ∈ l, p d = false) : l.dropWhile p = l := by
  cases l with
  | nil => rfl
  | cons c cs =>
    rw [List.dropWhile_cons, if_neg]
    simp [h c (List.mem_cons_self c cs)]

/-- Stripping whitespace from a capture whose tail is whitespace-free
leaves no whitespace at all. -/
lemma stripWith_nonspace (c : Char) (gl : List Char)
    (hgl : ∀ d ∈ gl, isPySpace d = false) :
    ∀ d ∈ stripWith isPySpace (c :: gl), isPySpace d = false := by
  intro d hd
  have step1 : d ∈ (c :: gl).dropWhile isPySpace := by
    unfold stripWith at hd
    rw [List.mem_reverse] at hd
    have := mem_of_mem_dropWhile isPySpace _ d hd
    rw [List.mem_reverse] at this
    exact this
  by_cases hc : isPySpace c = true
  · rw [List.dropWhile_cons, if_pos hc, dropWhile_eq_self_of_none isPySpace gl hgl] at step1
    exact hgl d step1
  · rw [List.dropWhile_cons, if_neg hc] at step1
    rcases List.mem_cons.1 step1 with rfl | h3
    · simpa using hc
    · exact hgl d h3

/-- A location capture found anywhere by the scan is a lazy capture. -/
lemma tryWsDown_lazy :
    ∀ (j : Nat) (rest g : List Char), tryWsDown j rest = some g →
      ∃ l, lazyCapture l = some g := by
  intro j
  induction j with
  | zero => intro rest g h; simp [tryWsDown] at h
  | succ j ih =>
    intro rest g h
    cases hm : lazyCapture (rest.drop (j + 1)) with
    | some g' =>
      refine ⟨rest.drop (j + 1), ?_⟩
      rw [hm]
      simp only [tryWsDown, hm] at h
      exact h
    | none =>
      simp only [tryWsDown, hm] at h
      exact ih rest g h

/-- A match of the tail of the location pattern yields a lazy capture. -/
lemma matchAfterToken_lazy (rest g : List Char) (h : matchAfterToken rest = some g) :
    ∃ l, lazyCapture l = some g :=
  tryWsDown_lazy _ rest g h

/-- An attempt of the location pattern yields a lazy capture. -/
lemma locAttempt_lazy (b : Bool) :
    ∀ l g : List Char, locAttempt b l = some g → ∃ l', lazyCapture l' = some g := by
  intro l g h
  cases l with
  | nil => simp [locAttempt] at h
  | cons c cs =>
    cases cs with
    | nil => simp [locAttempt] at h
    | cons d rest =>
      simp only [locAttempt] at h
      split at h
      · exact matchAfterToken_lazy rest g h
      · exact absurd h (by simp)

/-- A capture found by the leftmost scan is a lazy capture. -/
lemma locSearch_lazy :
    ∀ (l : List Char) (prev : Option Char) (g : List Char),
      locSearch prev l = some g → ∃ l', lazyCapture l' = some g := by
  intro l
  induction l with
  | nil => intro prev g h; simp [locSearch] at h
  | cons c cs ih =>
    intro prev g h
    cases prev with
    | none =>
      simp only [locSearch] at h
      cases ha : locAttempt true (c :: cs) with
      | some g' =>
        rw [ha] at h
        injection h with h2
        subst h2
        exact locAttempt_lazy _ _ _ ha
      | none =>
        rw [ha] at h
        exact ih (some c) g h
    | some p =>
      simp only [locSearch] at h
      cases ha : locAttempt (!(isWordChar p)) (c :: cs) with
      | some g' =>
        rw [ha] at h
        injection h with h2
        subst h2
        exact locAttempt_lazy _ _ _ ha
      | none =>
        rw [ha] at h
        exact ih (some c) g h

/-- C10 (confirmed): whenever intent extraction returns a non-absent
location, that location contains no whitespace — the lazy capture group
stops at the first space, so only the capture's first character can be a
space, and stripping removes it; in particular a multi-word city name such
as "New York" can never be extracted. -/
theorem C10_location_no_whitespace :
    (∀ q loc : String, (extractIntent q).location = some loc →
      ∀ c ∈ loc.toList, isPySpace c = false) ∧
    (∀ q : String, (extractIntent q).location ≠ some "New York") := by
  have main : ∀ q loc : String, (extractIntent q).location = some loc →
      ∀ c ∈ loc.toList, isPySpace c = false := by
    intro q loc h
    have h2 : extractLocation q = some loc := h
    simp only [extractLocation] at h2
    rcases Option.map_eq_some'.1 h2 with ⟨g, hg, hloc⟩
    obtain ⟨l', hl'⟩ := locSearch_lazy q.toList none g hg
    obtain ⟨c, tl, gl, hleq, hgeq⟩ := lazyCapture_head l' g hl'
    have htail := lazyCapture_tail_nonspace l' g hl'
    rw [hgeq] at htail
    simp only [List.tail_cons] at htail
    intro d hd
    rw [← hloc] at hd
    have hd2 : d ∈ stripWith isPySpace g := hd
    rw [hgeq] at hd2
    exact stripWith_nonspace c gl htail d hd2
  refine ⟨main, ?_⟩
  intro q hq
  have := main q "New York" hq ' ' (by decide)
  exact absurd this (by decide)

/-- Witness for C10 (its statement has a hypothesis): the query
"flat in New York" does not produce the location "New York". -/
theorem C10_witness : (extractIntent "flat in New York").location ≠ some "New York" :=
  C10_location_no_whitespace.2 "flat in New York"

/-! ## Sorting lemmas -/

/-- Membership in an insertion. -/
lemma mem_insertAsc {E : Type} (x y : Listing E × ℚ) :
    ∀ l : List (Listing E × ℚ), y ∈ insertAsc x l ↔ y = x ∨ y ∈ l := by
  intro l
  induction l with
  | nil => simp [insertAsc]
  | cons z zs ih =>
    by_cases h : x.2 ≤ z.2
    · simp [insertAsc, h]
    · simp only [insertAsc, if_neg h, List.mem_cons, ih]
      tauto

/-- Insertion grows the length by one. -/
lemma length_insertAsc {E : Type} (x : Listing E × ℚ) :
    ∀ l : List (Listing E × ℚ), (insertAsc x l).length = l.length + 1 := by
  intro l
  induction l with
  | nil => rfl
  | cons z zs ih =>
    by_cases h : x.2 ≤ z.2
    · simp [insertAsc, h]
    · simp [insertAsc, h, ih]

/-- Sorting preserves the length. -/
lemma length_sortAsc {E : Type} :
    ∀ l : List (Listing E × ℚ), (sortAscByScore l).length = l.length := by
  intro l
  induction l with
  | nil => rfl
  | cons z zs ih =>
    show (insertAsc z (sortAscByScore zs)).length = zs.length + 1
    rw [length_insertAsc, ih]

/-- Sorting preserves membership. -/
lemma mem_sortAsc {E : Type} (y : Listing E × ℚ) :
    ∀ l : List (Listing E × ℚ), y ∈ sortAscByScore l ↔ y ∈ l := by
  intro l
  induction l with
  | nil => simp [sortAscByScore]
  | cons z zs ih =>
    show y ∈ insertAsc z (sortAscByScore zs) ↔ _
    rw [mem_insertAsc, ih]
    simp

/-- Insertion preserves ascending order by score. -/
lemma pairwise_insertAsc {E : Type} (x : Listing E × ℚ) :
    ∀ l : List (Listing E × ℚ), l.Pairwise (fun a b => a.2 ≤ b.2) →
      (insertAsc x l).Pairwise (fun a b => a.2 ≤ b.2) := by
  intro l
  induction l with
  | nil => intro _; simp [insertAsc]
  | cons z zs ih =>
    intro h
    rw [List.pairwise_cons] at h
    by_cases hx : x.2 ≤ z.2
    · rw [insertAsc, if_pos hx, List.pairwise_cons]
      refine ⟨?_, List.pairwise_cons.2 h⟩
      intro b hb
      rcases List.mem_cons.1 hb with rfl | hb2
      · exact hx
      · exact hx.trans (h.1 b hb2)
    · rw [insertAsc, if_neg hx, List.pairwise_cons]
      refine ⟨?_, ih h.2⟩
      intro b hb
      rcases (mem_insertAsc x b zs).1 hb with rfl | hb2
      · exact le_of_not_le hx
      · exact h.1 b hb2

/-- The insertion sort produces a list ascending by score. -/
lemma pairwise_sortAsc {E : Type} :
    ∀ l : List (Listing E × ℚ), (sortAscByScore l).Pairwise (fun a b => a.2 ≤ b.2) := by
  intro l
  induction l with
  | nil => simp [sortAscByScore]
  | cons z zs ih => exact pairwise_insertAsc z (sortAscByScore zs) ih

/-- Length of the search result: 10-capped length of the filtered rows. -/
lemma searchListings_length {E : Type} (cos : E → E → ℚ) (emb : String → E)
    (df : List (Listing E)) (q : String) (ka : List String) :
    (searchListings cos emb df q ka).length = min 10 (filteredListings df q).length := by
  simp [searchListings, pandasSortDesc, List.length_take, length_sortAsc]

/-- Members of the search result are scored filtered rows. -/
lemma mem_search {E : Type} (cos : E → E → ℚ) (emb : String → E)
    (df : List (Listing E)) (q : String) (ka : List String) (L : Listing E) (s : ℚ)
    (hL : (L, s) ∈ searchListings cos emb df q ka) : L ∈ filteredListings df q := by
  simp only [searchListings] at hL
  have h1 := (List.take_sublist _ _).mem hL
  rw [pandasSortDesc, List.mem_reverse, mem_sortAsc, List.mem_map] at h1
  rcases h1 with ⟨r, hr, heq⟩
  have : r = L := congrArg Prod.fst heq
  exact this ▸ hr

/-! ## C3: ordering of results -/

/-- First concrete listing for counterexamples. -/
def listA : Listing Unit :=
  { city := "A", price := 1, descriptionEmbedding := (), amenities := [] }

/-- Second concrete listing for counterexamples. -/
def listB : Listing Unit :=
  { city := "B", price := 1, descriptionEmbedding := (), amenities := [] }

/-- C3 counterexample: two distinct listings with equal scores scored in
the same call come back in reversed input order, because pandas reverses
an ascending argsort of the scores — refuting the stable-tie part of the
claim. -/
theorem C3_counterexample :
    listA ≠ listB ∧
    finalScore cosW listA () [] none = finalScore cosW listB () [] none ∧
    (searchListings cosW embW [listA, listB] "" key_amenities).map (fun x => x.1.city) =
      ["B", "A"] := by
  have hne : listA ≠ listB := by
    intro h
    have := congrArg Listing.city h
    simp [listA, listB] at this
  have hscore : ∀ r : Listing Unit, finalScore cosW r () [] none = 0 := by
    intro r
    simp [finalScore, cosW]
  have hint : extractIntent "" = { location := none, maxPrice := none, amenities := [] } := rfl
  have hfilt : filteredListings [listA, listB] "" = [listA, listB] := rfl
  refine ⟨hne, by rw [hscore, hscore], ?_⟩
  simp only [searchListings, hint, hfilt]
  simp only [List.filter_nil, List.map_cons, List.map_nil, hscore]
  simp [pandasSortDesc, sortAscByScore, insertAsc, listA, listB]

/-- C3 (amended): the returned sequence is sorted in descending order of
score — any listing with a strictly greater score appears strictly
earlier — but the tie-break is not the stable one of the claim: rows with
equal scores appear in reversed input order (pandas reverses an ascending
argsort; see the counterexample). -/
theorem C3_sorted_desc_amended {E : Type} (cos : E → E → ℚ) (emb : String → E)
    (df : List (Listing E)) (q : String) (ka : List String) :
    (searchListings cos emb df q ka).Pairwise (fun a b => b.2 ≤ a.2) ∧
    (∀ i j : Fin (searchListings cos emb df q ka).length,
      ((searchListings cos emb df q ka).get j).2 < ((searchListings cos emb df q ka).get i).2 →
        i < j) := by
  have hpair : (searchListings cos emb df q ka).Pairwise (fun a b => b.2 ≤ a.2) := by
    have hasc := pairwise_sortAsc (E := E)
      ((filteredListings df q).map (fun r =>
        (r, finalScore cos r (emb q)
          ((extractIntent q).amenities.filter (fun a => ka.contains a))
          (extractIntent q).maxPrice)))
    have hrev := List.pairwise_reverse.2 hasc
    exact hrev.sublist (List.take_sublist _ _)
  refine ⟨hpair, ?_⟩
  intro i j hlt
  by_contra hij
  push_neg at hij
  rcases lt_or_eq_of_le hij with hji | hji
  · have := (List.pairwise_iff_get.1 hpair) j i hji
    exact absurd hlt (not_lt.2 this)
  · rw [← hji] at hlt
    exact absurd hlt (lt_irrefl _)

/-! ## C4: truncation to 10 results -/

/-- C4 counterexample: with 11 rows surviving filtering, the core returns
only 10 — refuting the claim that the full sorted sequence is returned
with truncation left to the caller. -/
theorem C4_counterexample :
    (filteredListings (List.replicate 11 listA) "").length = 11 ∧
    (searchListings cosW embW (List.replicate 11 listA) "" key_amenities).length = 10 := by
  have hfilt : filteredListings (List.replicate 11 listA) "" = List.replicate 11 listA := rfl
  constructor
  · rw [hfilt]; rfl
  · rw [searchListings_length, hfilt]; rfl

/-- C4 (amended): the core search returns the 10 highest-scoring filtered
rows, not all of them: its length is the minimum of 10 and the number of
rows that survive filtering, so any further truncation by the caller can
only shorten the top-10. -/
theorem C4_top10_amended {E : Type} (cos : E → E → ℚ) (emb : String → E)
    (df : List (Listing E)) (q : String) (ka : List String) :
    (searchListings cos emb df q ka).length = min 10 (filteredListings df q).length :=
  searchListings_length cos emb df q ka

/-! ## C9: filter correctness -/

/-- Every character of a lazy capture belongs to the class `[A-Za-z\s]`. -/
lemma lazyCapture_class :
    ∀ l g : List Char, lazyCapture l = some g → ∀ d ∈ g, locClass d = true := by
  intro l
  induction l with
  | nil => intro g h; simp [lazyCapture] at h
  | cons c cs ih =>
    intro g h d hd
    by_cases h1 : locClass c = true
    · by_cases h2 : termAt cs = true
      · rw [lazyCapture_cons, if_pos h1, if_pos h2] at h
        injection h with he
        rw [← he] at hd
        rcases List.mem_cons.1 hd with rfl | hd2
        · exact h1
        · exact absurd hd2 (by simp)
      · rw [lazyCapture_cons, if_pos h1, if_neg h2] at h
        cases h3 : lazyCapture cs with
        | none => rw [h3] at h; exact absurd h (by simp)
        | some g' =>
          rw [h3] at h
          have h' : some (c :: g') = some g := h
          injection h' with he
          rw [← he] at hd
          rcases List.mem_cons.1 hd with rfl | hd2
          · exact h1
          · exact ih g' h3 d hd2
    · rw [lazyCapture_cons, if_neg h1] at h
      exact absurd h (by simp)

/-- Elements survive a two-sided strip. -/
lemma mem_of_mem_stripWith (p : Char → Bool) (l : List Char) (d : Char)
    (hd : d ∈ stripWith p l) : d ∈ l := by
  unfold stripWith at hd
  rw [List.mem_reverse] at hd
  have h1 := mem_of_mem_dropWhile p _ d hd
  rw [List.mem_reverse] at h1
  exact mem_of_mem_dropWhile p l d h1

/-- A two-sided strip is the identity when no character satisfies the
predicate. -/
lemma stripWith_eq_self (p : Char → Bool) (l : List Char)
    (h : ∀ d ∈ l, p d = false) : stripWith p l = l := by
  unfold stripWith
  rw [dropWhile_eq_self_of_none p l h,
    dropWhile_eq_self_of_none p l.reverse (fun d hd => h d (List.mem_reverse.1 hd)),
    List.reverse_reverse]

/-- An extracted location consists of letters only, so the quote-stripping
of `search_listings` leaves it unchanged. -/
lemma trimLocation_extracted (q loc : String)
    (hloc : (extractIntent q).location = some loc) : trimLocation loc = loc := by
  have h2 : extractLocation q = some loc := hloc
  simp only [extractLocation] at h2
  rcases Option.map_eq_some'.1 h2 with ⟨g, hg, hmk⟩
  obtain ⟨l', hl'⟩ := locSearch_lazy q.toList none g hg
  obtain ⟨c, tl, gl, hleq, hgeq⟩ := lazyCapture_head l' g hl'
  have htail := lazyCapture_tail_nonspace l' g hl'
  rw [hgeq] at htail
  simp only [List.tail_cons] at htail
  have hclass := lazyCapture_class l' g hl'
  have hloctl : loc.toList = stripWith isPySpace g := by rw [← hmk]; rfl
  have hnsp : ∀ d ∈ loc.toList, isPySpace d = false := by
    intro d hd
    rw [hloctl, hgeq] at hd
    exact stripWith_nonspace c gl htail d hd
  have halpha : ∀ d ∈ loc.toList, d.isAlpha = true := by
    intro d hd
    have hc1 : locClass d = true := by
      rw [hloctl] at hd
      exact hclass d (mem_of_mem_stripWith isPySpace g d hd)
    have hc2 := hnsp d hd
    rw [locClass, Bool.or_eq_true] at hc1
    rcases hc1 with hc1 | hc1
    · exact hc1
    · rw [hc2] at hc1; exact absurd hc1 (by simp)
  have hq2 : ∀ d ∈ loc.toList, (fun c => decide (c = '"')) d = false := by
    intro d hd
    by_cases hdq : d = '"'
    · subst hdq
      exact absurd (halpha '"' hd) (by decide)
    · simp [hdq]
  have hq3 : ∀ d ∈ loc.toList, (fun c => decide (c = '\'')) d = false := by
    intro d hd
    by_cases hdq : d = '\''
    · subst hdq
      exact absurd (halpha '\'' hd) (by decide)
    · simp [hdq]
  rw [trimLocation, stripWith_eq_self _ _ hnsp, stripWith_eq_self _ _ hq2,
    stripWith_eq_self _ _ hq3]
  rfl

/-- The price filter of the search pipeline. -/
lemma filteredListings_price {E : Type} (df : List (Listing E)) (q : String)
    (L : Listing E) (hLf : L ∈ filteredListings df q) (mp : ℚ)
    (hmp : (extractIntent q).maxPrice = some mp) : L.price ≤ mp := by
  simp only [filteredListings, hmp, List.mem_filter] at hLf
  exact of_decide_eq_true hLf.2

/-- The location filter of the search pipeline. -/
lemma filteredListings_city {E : Type} (df : List (Listing E)) (q : String)
    (L : Listing E) (hLf : L ∈ filteredListings df q) (loc : String)
    (hloc : (extractIntent q).location = some loc) (hne : loc ≠ "")
    (hval : trimLocation loc ≠ "") :
    pyLower L.city = pyLower (trimLocation loc) := by
  simp only [filteredListings, locationFilterValue, hloc, if_neg hne, if_neg hval] at hLf
  cases hmp : (extractIntent q).maxPrice with
  | none =>
    rw [hmp] at hLf
    simp only [List.mem_filter, beq_iff_eq] at hLf
    exact hLf.2
  | some mp =>
    rw [hmp] at hLf
    simp only [List.mem_filter, beq_iff_eq] at hLf
    exact hLf.1.2

/-- C9 (confirmed): every listing returned by the search satisfies the
extracted filters: its price is at most any extracted max price
(inclusive), and its city equals the extracted location case-insensitively
after the location is trimmed of surrounding whitespace and quote
characters (a location is in effect when it is non-absent and non-empty,
matching the code's `if location:` presence check; an extracted location is
all letters, so the trimming is the identity on it). -/
theorem C9_filter_correctness {E : Type} (cos : E → E → ℚ) (emb : String → E)
    (df : List (Listing E)) (q : String) (ka : List String) (L : Listing E) (s : ℚ)
    (hL : (L, s) ∈ searchListings cos emb df q ka) :
    (∀ mp, (extractIntent q).maxPrice = some mp → L.price ≤ mp) ∧
    (∀ loc, (extractIntent q).location = some loc → loc ≠ "" →
      pyLower L.city = pyLower (trimLocation loc)) := by
  have hLf := mem_search cos emb df q ka L s hL
  constructor
  · intro mp hmp
    exact filteredListings_price df q L hLf mp hmp
  · intro loc hloc hne
    have htrim := trimLocation_extracted q loc hloc
    exact filteredListings_city df q L hLf loc hloc hne (htrim.symm ▸ hne)

/-- Witness for C9 at a one-row table and the query
"in Rome under 200". -/
theorem C9_witness : rowW.price ≤ 200 ∧ pyLower rowW.city = pyLower (trimLocation "Rome") := by
  have hint : extractIntent "in Rome under 200" =
      { location := some "Rome", maxPrice := some 200, amenities := [] } := by decide
  have hfilt : filteredListings [rowW] "in Rome under 200" = [rowW] := rfl
  have hscore : finalScore cosW rowW () [] (some 200) = 0 := by
    simp [finalScore, cosW, rowW, eq_false (by decide : ¬ ((200 : ℚ) < (3 : ℚ)))]
  have hL : (rowW, (0 : ℚ)) ∈ searchListings cosW embW [rowW] "in Rome under 200" key_amenities := by
    simp only [searchListings, hint, hfilt]
    simp only [List.map_cons, List.map_nil, List.filter_nil, hscore]
    simp [pandasSortDesc, sortAscByScore, insertAsc]
  have h := C9_filter_correctness cosW embW [rowW] "in Rome under 200" key_amenities rowW 0 hL
  exact ⟨h.1 200 (by rw [hint]), h.2 "Rome" (by rw [hint]) (by decide)⟩

/-! ## C2: max price of zero -/

/-- A listing whose price is zero, used to exercise the zero max-price
path. -/
def zeroRow : Listing Unit :=
  { city := "Z", price := 0, descriptionEmbedding := (), amenities := [] }

/-- C2 (code bug): the code has no InvalidFilter condition at all. With
max_price = 0 extracted, the pipeline silently filters to rows with price
at most 0 and computes their scores as usual (the price penalty stays 0
because the filter leaves no row with price above the maximum, so no
division by zero is reached); no error is raised and scores are computed,
contradicting the spec's fail-fast requirement. -/
theorem C2_zero_max_price_scores_computed :
    (extractIntent "under 0").maxPrice = some 0 ∧
    (searchListings cosW embW [zeroRow] "under 0" key_amenities).map
      (fun x => (x.1.city, x.2)) = [("Z", 0)] := by
  have hint : extractIntent "under 0" =
      { location := none, maxPrice := some 0, amenities := [] } := by decide
  have hfilt : filteredListings [zeroRow] "under 0" = [zeroRow] := rfl
  have hscore : finalScore cosW zeroRow () [] (some 0) = 0 := by
    simp [finalScore, cosW, zeroRow, eq_false (by decide : ¬ ((0 : ℚ) < (0 : ℚ)))]
  constructor
  · rw [hint]
  · simp only [searchListings, hint, hfilt]
    simp only [List.map_cons, List.map_nil, List.filter_nil, hscore]
    simp [pandasSortDesc, sortAscByScore, insertAsc, zeroRow]

/-- Witness for C3's amended theorem at a concrete search call. -/
theorem C3_witness :
    (searchListings cosW embW [listA, listB] "" key_amenities).Pairwise
      (fun a b => b.2 ≤ a.2) :=
  (C3_sorted_desc_amended cosW embW [listA, listB] "" key_amenities).1
